import Mathlib

/-!
Verification of the bounded TTL LRU cache of the Weather-search server
(`src/server.js`, class `LRUCache`).

The JavaScript `Map` is modelled as an association list `List (String × Entry α)`
in insertion order: the head of the list is the first (oldest / least-recently
inserted) key, the last element is the most recently inserted key, matching the
iteration order of a JavaScript `Map`.  Timestamps (`Date.now()`) are passed
explicitly as `Nat` milliseconds.  The payload type is an opaque parameter `α`.
-/

set_option autoImplicit false

namespace WeatherCache

/-- A cache entry, `{value, expiry}` in the source (`server.js` line 72). -/
structure Entry (α : Type) where
  value : α
  expiry : Nat
  deriving Repr, DecidableEq

/-- The cache state: `maxEntries`, `ttlMillis` and the insertion-ordered map
(`server.js` lines 42-46). -/
structure LRUCache (α : Type) where
  maxEntries : Nat
  ttlMillis : Nat
  map : List (String × Entry α)
  deriving Repr, DecidableEq

/-- Result of `stats()` (`server.js` lines 78-84). -/
structure Stats where
  entries : Nat
  maxEntries : Nat
  ttlMillis : Nat
  deriving Repr, DecidableEq

/-- JavaScript `Map.prototype.get`: the value stored at the (unique) key. -/
def jsMapGet {α : Type} : List (String × Entry α) → String → Option (Entry α)
  | [], _ => none
  | (k', e) :: rest, k => if k' = k then some e else jsMapGet rest k

/-- JavaScript `Map.prototype.has`. -/
def jsMapHas {α : Type} (m : List (String × Entry α)) (k : String) : Bool :=
  m.any (fun p => p.1 = k)

/-- JavaScript `Map.prototype.delete`: removes the entry stored at the key. -/
def jsMapDelete {α : Type} (m : List (String × Entry α)) (k : String) :
    List (String × Entry α) :=
  m.filter (fun p => p.1 ≠ k)

/-- JavaScript `Map.prototype.set`: replaces in place if the key is present
(keeping its position), otherwise appends at the end (newest position). -/
def jsMapSet {α : Type} (m : List (String × Entry α)) (k : String) (e : Entry α) :
    List (String × Entry α) :=
  if jsMapHas m k then m.map (fun p => if p.1 = k then (k, e) else p)
  else m ++ [(k, e)]

/-- `map.keys().next().value`: the first (least-recently inserted) key,
`none` when the map is empty (JavaScript `undefined`). -/
def firstKey {α : Type} (m : List (String × Entry α)) : Option String :=
  m.head?.map (fun p => p.1)

/-- The list of keys, in recency order (first = least recent). -/
def keysOf {α : Type} (m : List (String × Entry α)) : List String :=
  m.map (fun p => p.1)

/-- `_isExpired(entry)` — `Date.now() > entry.expiry` (`server.js` lines 48-50). -/
def isExpired {α : Type} (now : Nat) (e : Entry α) : Bool :=
  decide (e.expiry < now)

/-- The keys whose entries are unexpired at `now` (logically present entries). -/
def liveKeys {α : Type} (m : List (String × Entry α)) (now : Nat) : List String :=
  keysOf (m.filter (fun p => !isExpired now p.2))

/-- The constructor (`server.js` lines 42-46): records the limits, converts the
TTL to milliseconds and starts with an empty map.  It performs no validation. -/
def LRUCache.new (α : Type) (maxEntries ttlSeconds : Nat) : LRUCache α :=
  { maxEntries := maxEntries, ttlMillis := ttlSeconds * 1000, map := [] }

/-- `get(key)` (`server.js` lines 52-63): miss returns `null`; an expired hit
deletes the entry and returns `null`; a live hit deletes and re-inserts the
entry (promoting it to most-recently-used) and returns its value. -/
def LRUCache.get {α : Type} (c : LRUCache α) (key : String) (now : Nat) :
    LRUCache α × Option α :=
  match jsMapGet c.map key with
  | none => (c, none)
  | some entry =>
    if isExpired now entry then
      ({ c with map := jsMapDelete c.map key }, none)
    else
      ({ c with map := jsMapSet (jsMapDelete c.map key) key entry }, some entry.value)

/-- `set(key, value)` (`server.js` lines 65-76): if `map.size >= maxEntries`,
deletes the first key — guarded by JavaScript truthiness, so a missing
(`undefined`) or empty-string first key is not deleted; then removes the key if
present and appends a fresh entry with `expiry = now + ttlMillis`. -/
def LRUCache.set {α : Type} (c : LRUCache α) (key : String) (value : α) (now : Nat) :
    LRUCache α :=
  let afterEvict :=
    if c.map.length ≥ c.maxEntries then
      match firstKey c.map with
      | some k0 => if k0 ≠ "" then jsMapDelete c.map k0 else c.map
      | none => c.map
    else c.map
  let entry : Entry α := { value := value, expiry := now + c.ttlMillis }
  let afterDelete := if jsMapHas afterEvict key then jsMapDelete afterEvict key else afterEvict
  { c with map := jsMapSet afterDelete key entry }

/-- `stats()` (`server.js` lines 78-84): the raw stored count (`map.size`),
the capacity and the TTL; it reads the state and mutates nothing. -/
def LRUCache.stats {α : Type} (c : LRUCache α) : Stats :=
  { entries := c.map.length, maxEntries := c.maxEntries, ttlMillis := c.ttlMillis }

/-- One cache call, with its explicit `Date.now()` timestamp where the source
reads the clock. -/
inductive Op (α : Type) where
  | get (key : String) (now : Nat)
  | set (key : String) (value : α) (now : Nat)
  | stats
  deriving Repr, DecidableEq

/-- The state reached after one call (`stats` reads without mutating). -/
def step {α : Type} (c : LRUCache α) : Op α → LRUCache α
  | .get k now => (c.get k now).1
  | .set k v now => c.set k v now
  | .stats => c

/-- The state reached after a sequence of calls. -/
def runOps {α : Type} (c : LRUCache α) (ops : List (Op α)) : LRUCache α :=
  ops.foldl step c

/-- An operation whose key is a non-empty string (`true` for `stats`).  Every
key the surrounding server passes to the cache is a non-empty lowercased city
name (`server.js` lines 111-116). -/
def opKeyOk {α : Type} : Op α → Bool
  | .get k _ => k ≠ ""
  | .set k _ _ => k ≠ ""
  | .stats => true

/-- The key that `set` would evict, read off the source's eviction guard
(`server.js` lines 67-71): defined exactly when the raw stored count has
reached `maxEntries` and the first key exists and is non-empty. -/
def evictTarget {α : Type} (c : LRUCache α) : Option String :=
  if c.map.length ≥ c.maxEntries then
    match firstKey c.map with
    | some k0 => if k0 ≠ "" then some k0 else none
    | none => none
  else none

/-! ### Basic lemmas about the JavaScript `Map` model -/

theorem keysOf_nil {α : Type} : keysOf ([] : List (String × Entry α)) = [] := rfl

theorem keysOf_cons {α : Type} (p : String × Entry α) (m : List (String × Entry α)) :
    keysOf (p :: m) = p.1 :: keysOf m := rfl

theorem keysOf_append {α : Type} (m₁ m₂ : List (String × Entry α)) :
    keysOf (m₁ ++ m₂) = keysOf m₁ ++ keysOf m₂ := by
  simp [keysOf]

theorem mem_keysOf {α : Type} (m : List (String × Entry α)) (k : String) :
    k ∈ keysOf m ↔ ∃ p ∈ m, p.1 = k := by
  simp [keysOf, List.mem_map]

theorem keysOf_jsMapDelete {α : Type} (m : List (String × Entry α)) (k : String) :
    keysOf (jsMapDelete m k) = (keysOf m).filter (fun x => x ≠ k) := by
  induction m with
  | nil => rfl
  | cons p t ih =>
    obtain ⟨k', e'⟩ := p
    by_cases h : k' = k
    · simpa [jsMapDelete, keysOf, List.filter_cons, h] using ih
    · simpa [jsMapDelete, keysOf, List.filter_cons, h] using ih

theorem mem_keysOf_jsMapDelete {α : Type} (m : List (String × Entry α)) (k k' : String) :
    k' ∈ keysOf (jsMapDelete m k) ↔ k' ∈ keysOf m ∧ k' ≠ k := by
  simp [keysOf_jsMapDelete, List.mem_filter]

theorem jsMapDelete_eq_self {α : Type} {m : List (String × Entry α)} {k : String}
    (h : k ∉ keysOf m) : jsMapDelete m k = m := by
  apply List.filter_eq_self.mpr
  intro p hp
  simp only [ne_eq, decide_eq_true_eq]
  intro hpk
  exact h ((mem_keysOf m k).2 ⟨p, hp, hpk⟩)

theorem jsMapHas_iff {α : Type} (m : List (String × Entry α)) (k : String) :
    jsMapHas m k = true ↔ k ∈ keysOf m := by
  simp [jsMapHas, List.any_eq_true, mem_keysOf]

theorem jsMapHas_eq_false_iff {α : Type} (m : List (String × Entry α)) (k : String) :
    jsMapHas m k = false ↔ k ∉ keysOf m := by
  rw [← Bool.not_eq_true, not_iff_not]
  exact jsMapHas_iff m k

theorem jsMapHas_jsMapDelete_self {α : Type} (m : List (String × Entry α)) (k : String) :
    jsMapHas (jsMapDelete m k) k = false := by
  rw [jsMapHas_eq_false_iff, mem_keysOf_jsMapDelete]
  simp

theorem jsMapSet_of_not_has {α : Type} {m : List (String × Entry α)} {k : String}
    (e : Entry α) (h : jsMapHas m k = false) : jsMapSet m k e = m ++ [(k, e)] := by
  simp [jsMapSet, h]

theorem jsMapGet_eq_none_iff {α : Type} (m : List (String × Entry α)) (k : String) :
    jsMapGet m k = none ↔ k ∉ keysOf m := by
  induction m with
  | nil => simp [jsMapGet, keysOf]
  | cons p t ih =>
    obtain ⟨k', e'⟩ := p
    by_cases h : k' = k
    · simp [jsMapGet, keysOf, h]
    · simp only [jsMapGet, keysOf, h, if_false, List.map_cons, List.mem_cons]
      rw [ih]
      simp [keysOf, Ne.symm h]

theorem jsMapGet_some_mem {α : Type} {m : List (String × Entry α)} {k : String}
    {e : Entry α} (h : jsMapGet m k = some e) : k ∈ keysOf m := by
  by_contra hk
  rw [← jsMapGet_eq_none_iff m k] at hk
  rw [h] at hk
  exact Option.noConfusion hk

theorem jsMapGet_append_self {α : Type} {m : List (String × Entry α)} {k : String}
    (e : Entry α) (h : k ∉ keysOf m) : jsMapGet (m ++ [(k, e)]) k = some e := by
  induction m with
  | nil => simp [jsMapGet]
  | cons p t ih =>
    obtain ⟨k', e'⟩ := p
    have hk : ¬k' = k := by
      intro hkk
      exact h ((mem_keysOf _ k).2 ⟨(k', e'), List.mem_cons_self _ _, hkk⟩)
    have ht : k ∉ keysOf t := by
      intro hkt
      exact h (by rw [keysOf_cons]; exact List.mem_cons_of_mem _ hkt)
    simpa [jsMapGet, hk] using ih ht

theorem jsMapGet_jsMapDelete_self {α : Type} (m : List (String × Entry α)) (k : String) :
    jsMapGet (jsMapDelete m k) k = none := by
  rw [jsMapGet_eq_none_iff, mem_keysOf_jsMapDelete]
  simp

theorem length_jsMapDelete_le {α : Type} (m : List (String × Entry α)) (k : String) :
    (jsMapDelete m k).length ≤ m.length :=
  List.length_filter_le _ m

theorem length_jsMapDelete_lt {α : Type} {m : List (String × Entry α)} {k : String}
    (h : k ∈ keysOf m) : (jsMapDelete m k).length < m.length := by
  apply List.length_filter_lt_length_iff_exists.2
  obtain ⟨p, hp, hpk⟩ := (mem_keysOf m k).1 h
  exact ⟨p, hp, by simp [hpk]⟩

theorem keysOf_jsMapSet_of_has {α : Type} {m : List (String × Entry α)} {k : String}
    (e : Entry α) (h : jsMapHas m k = true) : keysOf (jsMapSet m k e) = keysOf m := by
  simp only [jsMapSet, h, if_true, keysOf, List.map_map]
  apply List.map_congr_left
  intro p _
  by_cases hp : p.1 = k <;> simp [hp]

theorem mem_keysOf_jsMapSet {α : Type} (m : List (String × Entry α)) (k k' : String)
    (e : Entry α) : k' ∈ keysOf (jsMapSet m k e) ↔ k' = k ∨ k' ∈ keysOf m := by
  by_cases h : jsMapHas m k = true
  · rw [keysOf_jsMapSet_of_has e h]
    have hk : k ∈ keysOf m := (jsMapHas_iff m k).1 h
    constructor
    · exact Or.inr
    · rintro (rfl | h1)
      exacts [hk, h1]
  · rw [Bool.not_eq_true] at h
    rw [jsMapSet_of_not_has e h, keysOf_append]
    simp [keysOf, or_comm]

/-! ### Characterizations of `get`, `set` and `step` -/

theorem deleteIfHas_eq {α : Type} (m : List (String × Entry α)) (k : String) :
    (if jsMapHas m k then jsMapDelete m k else m) = jsMapDelete m k := by
  by_cases h : jsMapHas m k = true
  · simp [h]
  · rw [Bool.not_eq_true] at h
    rw [if_neg (by simp [h]), jsMapDelete_eq_self ((jsMapHas_eq_false_iff m k).1 h)]

theorem afterEvictEq {α : Type} (c : LRUCache α) :
    (if c.map.length ≥ c.maxEntries then
       match firstKey c.map with
       | some k0 => if k0 ≠ "" then jsMapDelete c.map k0 else c.map
       | none => c.map
     else c.map)
    = (match evictTarget c with
       | some k0 => jsMapDelete c.map k0
       | none => c.map) := by
  unfold evictTarget
  by_cases hlen : c.map.length ≥ c.maxEntries
  · simp only [hlen, if_true]
    cases hfk : firstKey c.map with
    | none => rfl
    | some k0 =>
      by_cases h0 : k0 ≠ ""
      · simp [h0]
      · simp [h0]
  · simp [hlen]

/-- The map after `set(key, value)`: the eviction victim (if any) is removed,
then `key` is removed, then the fresh entry is appended at the newest end. -/
theorem set_map_eq {α : Type} (c : LRUCache α) (k : String) (v : α) (now : Nat) :
    (c.set k v now).map
      = jsMapDelete (match evictTarget c with
          | some k0 => jsMapDelete c.map k0
          | none => c.map) k
        ++ [(k, { value := v, expiry := now + c.ttlMillis })] := by
  simp only [LRUCache.set]
  rw [deleteIfHas_eq, jsMapSet_of_not_has _ (jsMapHas_jsMapDelete_self _ _), afterEvictEq]

theorem get_miss {α : Type} (c : LRUCache α) (k : String) (now : Nat)
    (h : jsMapGet c.map k = none) : c.get k now = (c, none) := by
  simp [LRUCache.get, h]

theorem get_expired {α : Type} (c : LRUCache α) (k : String) (now : Nat) (e : Entry α)
    (h : jsMapGet c.map k = some e) (hx : isExpired now e = true) :
    c.get k now = ({ c with map := jsMapDelete c.map k }, none) := by
  simp [LRUCache.get, h, hx]

theorem get_hit {α : Type} (c : LRUCache α) (k : String) (now : Nat) (e : Entry α)
    (h : jsMapGet c.map k = some e) (hx : isExpired now e = false) :
    c.get k now = ({ c with map := jsMapDelete c.map k ++ [(k, e)] }, some e.value) := by
  simp [LRUCache.get, h, hx, jsMapSet_of_not_has _ (jsMapHas_jsMapDelete_self _ _)]

theorem get_maxEntries {α : Type} (c : LRUCache α) (k : String) (now : Nat) :
    ((c.get k now).1).maxEntries = c.maxEntries := by
  cases h : jsMapGet c.map k with
  | none => simp [LRUCache.get, h]
  | some e =>
    by_cases hx : isExpired now e = true
    · simp [LRUCache.get, h, hx]
    · simp [LRUCache.get, h, hx]

theorem get_ttlMillis {α : Type} (c : LRUCache α) (k : String) (now : Nat) :
    ((c.get k now).1).ttlMillis = c.ttlMillis := by
  cases h : jsMapGet c.map k with
  | none => simp [LRUCache.get, h]
  | some e =>
    by_cases hx : isExpired now e = true
    · simp [LRUCache.get, h, hx]
    · simp [LRUCache.get, h, hx]

theorem set_maxEntries {α : Type} (c : LRUCache α) (k : String) (v : α) (now : Nat) :
    (c.set k v now).maxEntries = c.maxEntries := by
  simp [LRUCache.set]

theorem set_ttlMillis {α : Type} (c : LRUCache α) (k : String) (v : α) (now : Nat) :
    (c.set k v now).ttlMillis = c.ttlMillis := by
  simp [LRUCache.set]

theorem step_maxEntries {α : Type} (c : LRUCache α) (op : Op α) :
    (step c op).maxEntries = c.maxEntries := by
  cases op with
  | get k now => exact get_maxEntries c k now
  | set k v now => exact set_maxEntries c k v now
  | stats => rfl

theorem step_ttlMillis {α : Type} (c : LRUCache α) (op : Op α) :
    (step c op).ttlMillis = c.ttlMillis := by
  cases op with
  | get k now => exact get_ttlMillis c k now
  | set k v now => exact set_ttlMillis c k v now
  | stats => rfl

/-- Which keys survive a `set`: the written key, plus every previously stored
key other than the eviction victim. -/
theorem mem_keysOf_set {α : Type} (c : LRUCache α) (k : String) (v : α) (now : Nat)
    (k' : String) :
    k' ∈ keysOf (c.set k v now).map ↔
      k' = k ∨ (k' ∈ keysOf c.map ∧ some k' ≠ evictTarget c) := by
  rw [set_map_eq, keysOf_append]
  cases ht : evictTarget c with
  | none =>
    simp only [List.mem_append, mem_keysOf_jsMapDelete]
    by_cases hk : k' = k <;> simp [keysOf, hk]
  | some k0 =>
    simp only [List.mem_append, mem_keysOf_jsMapDelete]
    by_cases hk : k' = k
    · simp [keysOf, hk]
    · simp only [keysOf, List.map_cons, List.map_nil, List.mem_singleton, hk, or_false,
        ne_eq, Option.some.injEq]
      tauto

theorem evictTarget_some {α : Type} {c : LRUCache α} {k0 : String}
    (h : evictTarget c = some k0) :
    c.map.length ≥ c.maxEntries ∧ firstKey c.map = some k0 ∧ k0 ≠ "" := by
  unfold evictTarget at h
  by_cases hlen : c.map.length ≥ c.maxEntries
  · simp only [hlen, if_true] at h
    cases hfk : firstKey c.map with
    | none => rw [hfk] at h; exact absurd h (by simp)
    | some k1 =>
      rw [hfk] at h
      by_cases h1 : k1 ≠ ""
      · change (if k1 ≠ "" then some k1 else none) = some k0 at h
        rw [if_pos h1] at h
        injection h with h2
        subst h2
        exact ⟨hlen, rfl, h1⟩
      · simp [h1] at h
  · simp [hlen] at h

theorem evictTarget_none_of_lt {α : Type} {c : LRUCache α}
    (h : ¬c.map.length ≥ c.maxEntries) : evictTarget c = none := by
  simp [evictTarget, h]

theorem firstKey_mem {α : Type} {m : List (String × Entry α)} {k0 : String}
    (h : firstKey m = some k0) : k0 ∈ keysOf m := by
  cases m with
  | nil => simp [firstKey] at h
  | cons p t =>
    have h' : p.1 = k0 := by simpa [firstKey] using h
    rw [keysOf_cons, ← h']
    exact List.mem_cons_self _ _

/-! ### The capacity invariant -/

/-- The invariant maintained by every call when the capacity is positive and
all keys are non-empty strings: the raw stored count never exceeds the
capacity, and every stored key is non-empty. -/
def Inv {α : Type} (c : LRUCache α) : Prop :=
  c.map.length ≤ c.maxEntries ∧ ∀ k' ∈ keysOf c.map, k' ≠ ""

theorem inv_get {α : Type} (c : LRUCache α) (k : String) (now : Nat) (h : Inv c) :
    Inv ((c.get k now).1) := by
  obtain ⟨hlen, hkeys⟩ := h
  cases hg : jsMapGet c.map k with
  | none => rw [get_miss c k now hg]; exact ⟨hlen, hkeys⟩
  | some e =>
    by_cases hx : isExpired now e = true
    · rw [get_expired c k now e hg hx]
      refine ⟨le_trans (length_jsMapDelete_le _ _) hlen, ?_⟩
      intro k' hk'
      exact hkeys k' ((mem_keysOf_jsMapDelete _ _ _).1 hk').1
    · rw [Bool.not_eq_true] at hx
      rw [get_hit c k now e hg hx]
      constructor
      · have h1 : (jsMapDelete c.map k).length < c.map.length :=
          length_jsMapDelete_lt (jsMapGet_some_mem hg)
        simp only [List.length_append, List.length_singleton]
        omega
      · intro k' hk'
        rw [keysOf_append] at hk'
        rcases List.mem_append.1 hk' with h1 | h1
        · exact hkeys k' ((mem_keysOf_jsMapDelete _ _ _).1 h1).1
        · have hk2 : k' = k := by simpa [keysOf] using h1
          subst hk2
          exact hkeys k' (jsMapGet_some_mem hg)

theorem length_set_le {α : Type} (c : LRUCache α) (k : String) (v : α) (now : Nat)
    (hm : 0 < c.maxEntries) (hlen : c.map.length ≤ c.maxEntries)
    (hkeys : ∀ k' ∈ keysOf c.map, k' ≠ "") :
    (c.set k v now).map.length ≤ c.maxEntries := by
  rw [set_map_eq, List.length_append]
  cases ht : evictTarget c with
  | none =>
    simp only [List.length_singleton]
    by_cases hge : c.map.length ≥ c.maxEntries
    · rcases hmap : c.map with _ | ⟨p, t⟩
      · rw [hmap] at hge
        simp only [List.length_nil] at hge
        omega
      · exfalso
        have hpne : p.1 ≠ "" := hkeys p.1 (by rw [hmap]; simp [keysOf])
        unfold evictTarget at ht
        rw [if_pos hge, hmap] at ht
        simp [firstKey, hpne] at ht
    · have := length_jsMapDelete_le c.map k
      omega
  | some k0 =>
    obtain ⟨hge, hfk, h0⟩ := evictTarget_some ht
    have hmem : k0 ∈ keysOf c.map := firstKey_mem hfk
    have h1 := length_jsMapDelete_lt hmem
    have h2 := length_jsMapDelete_le (jsMapDelete c.map k0) k
    simp only [List.length_singleton]
    omega

theorem keys_set_ne {α : Type} (c : LRUCache α) (k : String) (v : α) (now : Nat)
    (hk : k ≠ "") (hkeys : ∀ k' ∈ keysOf c.map, k' ≠ "") :
    ∀ k' ∈ keysOf (c.set k v now).map, k' ≠ "" := by
  intro k' hk'
  rcases (mem_keysOf_set c k v now k').1 hk' with rfl | ⟨hmem, _⟩
  · exact hk
  · exact hkeys k' hmem

theorem inv_set {α : Type} (c : LRUCache α) (k : String) (v : α) (now : Nat)
    (hm : 0 < c.maxEntries) (hk : k ≠ "") (h : Inv c) : Inv (c.set k v now) := by
  obtain ⟨hlen, hkeys⟩ := h
  constructor
  · rw [set_maxEntries]
    exact length_set_le c k v now hm hlen hkeys
  · exact keys_set_ne c k v now hk hkeys

theorem inv_step {α : Type} (c : LRUCache α) (op : Op α) (hm : 0 < c.maxEntries)
    (hop : opKeyOk op = true) (h : Inv c) : Inv (step c op) := by
  cases op with
  | get k now => exact inv_get c k now h
  | set k v now =>
    have hk : k ≠ "" := by simpa [opKeyOk] using hop
    exact inv_set c k v now hm hk h
  | stats => exact h

theorem inv_runOps {α : Type} :
    ∀ (ops : List (Op α)) (c : LRUCache α), 0 < c.maxEntries →
      (∀ op ∈ ops, opKeyOk op = true) → Inv c → Inv (runOps c ops) := by
  intro ops
  induction ops with
  | nil =>
    intro c _ _ h
    simpa [runOps] using h
  | cons op rest ih =>
    intro c hm hops h
    have h1 : Inv (step c op) := inv_step c op hm (hops op (List.mem_cons_self _ _)) h
    have h2 : 0 < (step c op).maxEntries := by rw [step_maxEntries]; exact hm
    have h3 := ih (step c op) h2 (fun o ho => hops o (List.mem_cons_of_mem _ ho)) h1
    simpa [runOps] using h3

theorem runOps_maxEntries {α : Type} :
    ∀ (ops : List (Op α)) (c : LRUCache α), (runOps c ops).maxEntries = c.maxEntries := by
  intro ops
  induction ops with
  | nil => intro c; rfl
  | cons op rest ih =>
    intro c
    have h1 := ih (step c op)
    simp only [runOps, List.foldl_cons] at h1 ⊢
    rw [h1, step_maxEntries]

/-! ### Running a sequence of `set` calls on pairwise-distinct keys -/

theorem LRUCache.ext' {α : Type} {c₁ c₂ : LRUCache α} (h1 : c₁.maxEntries = c₂.maxEntries)
    (h2 : c₁.ttlMillis = c₂.ttlMillis) (h3 : c₁.map = c₂.map) : c₁ = c₂ := by
  cases c₁
  cases c₂
  simp_all

/-- A map storing the keys `l` in order, all bound to the same entry. -/
def pairMap {α : Type} (v : α) (exp : Nat) (l : List String) : List (String × Entry α) :=
  l.map (fun k => (k, { value := v, expiry := exp }))

/-- A cache state whose map is `pairMap v (t + T) l`. -/
def stateOf {α : Type} (m T : Nat) (v : α) (t : Nat) (l : List String) : LRUCache α :=
  { maxEntries := m, ttlMillis := T, map := pairMap v (t + T) l }

theorem keysOf_pairMap {α : Type} (v : α) (exp : Nat) (l : List String) :
    keysOf (pairMap v exp l) = l := by
  simp only [pairMap, keysOf, List.map_map]
  have h : ((fun p : String × Entry α => p.1) ∘ fun k =>
      (k, ({ value := v, expiry := exp } : Entry α))) = fun k => k := by
    funext x
    rfl
  rw [h]
  exact List.map_id' l

theorem length_pairMap {α : Type} (v : α) (exp : Nat) (l : List String) :
    (pairMap v exp l).length = l.length := by
  simp [pairMap]

theorem pairMap_append {α : Type} (v : α) (exp : Nat) (l₁ l₂ : List String) :
    pairMap v exp (l₁ ++ l₂) = pairMap v exp l₁ ++ pairMap v exp l₂ := by
  simp [pairMap]

/-- One `set` on a fresh non-empty key, from a `stateOf` at capacity below the
bound: the key is appended, nothing is evicted. -/
theorem set_stateOf_below {α : Type} (m T : Nat) (v : α) (t : Nat) (l : List String)
    (k : String) (hlt : l.length < m) (hknl : k ∉ l) :
    (stateOf m T v t l : LRUCache α).set k v t = stateOf m T v t (l ++ [k]) := by
  refine LRUCache.ext' ?_ ?_ ?_
  · rw [set_maxEntries]
    rfl
  · rw [set_ttlMillis]
    rfl
  rw [set_map_eq]
  have hnolen : ¬(stateOf m T v t l : LRUCache α).map.length ≥ m := by
    simp only [stateOf, length_pairMap]
    omega
  rw [evictTarget_none_of_lt hnolen]
  show jsMapDelete (pairMap v (t + T) l) k ++ [(k, { value := v, expiry := t + T })]
      = pairMap v (t + T) (l ++ [k])
  rw [jsMapDelete_eq_self (by rw [keysOf_pairMap]; exact hknl), pairMap_append]
  rfl

/-- One `set` on a fresh non-empty key, from a `stateOf` at full capacity with
a non-empty first key: the first key is evicted and the key is appended. -/
theorem set_stateOf_full {α : Type} (m T : Nat) (v : α) (t : Nat) (l' : List String)
    (k0 k : String) (hleq : l'.length + 1 = m) (hk0ne : k0 ≠ "") (hk0nl' : k0 ∉ l')
    (hknl' : k ∉ l') :
    (stateOf m T v t (k0 :: l') : LRUCache α).set k v t = stateOf m T v t (l' ++ [k]) := by
  refine LRUCache.ext' ?_ ?_ ?_
  · rw [set_maxEntries]
    rfl
  · rw [set_ttlMillis]
    rfl
  rw [set_map_eq]
  have htarget : evictTarget (stateOf m T v t (k0 :: l') : LRUCache α) = some k0 := by
    unfold evictTarget
    rw [if_pos (by simp only [stateOf, length_pairMap, List.length_cons]; omega)]
    simp [stateOf, pairMap, firstKey, hk0ne]
  rw [htarget]
  have hdel0 : jsMapDelete (stateOf m T v t (k0 :: l') : LRUCache α).map k0
      = pairMap v (t + T) l' := by
    show jsMapDelete (pairMap v (t + T) (k0 :: l')) k0 = _
    simp only [pairMap, List.map_cons, jsMapDelete, List.filter_cons]
    rw [if_neg (by simp)]
    have h5 := jsMapDelete_eq_self (m := pairMap v (t + T) l') (k := k0)
      (by rw [keysOf_pairMap]; exact hk0nl')
    simp only [jsMapDelete, pairMap] at h5
    exact h5
  show jsMapDelete (jsMapDelete (stateOf m T v t (k0 :: l') : LRUCache α).map k0) k
      ++ [(k, { value := v, expiry := t + T })] = pairMap v (t + T) (l' ++ [k])
  rw [hdel0, jsMapDelete_eq_self (by rw [keysOf_pairMap]; exact hknl'), pairMap_append]
  rfl

/-- Running `set k v t` for each `k` of a pairwise-distinct list of non-empty
keys `ks`, starting from `stateOf` over `l`, leaves exactly the last
`maxEntries` keys of `l ++ ks`, in order, bound to the fresh entry. -/
theorem runSets_spec {α : Type} (m T : Nat) (v : α) (t : Nat) (hm : 0 < m) :
    ∀ (ks l : List String), (l ++ ks).Nodup → (∀ x ∈ l ++ ks, x ≠ "") → l.length ≤ m →
      runOps (stateOf m T v t l : LRUCache α) (ks.map (fun k => Op.set k v t))
        = stateOf m T v t ((l ++ ks).drop ((l ++ ks).length - m)) := by
  intro ks
  induction ks with
  | nil =>
    intro l hnd hne hlen
    simp only [List.map_nil, runOps, List.foldl_nil, List.append_nil]
    rw [Nat.sub_eq_zero_of_le hlen, List.drop_zero]
  | cons k ks ih =>
    intro l hnd hne hlen
    have hknl : k ∉ l := by
      rw [List.nodup_append] at hnd
      intro hkl
      exact hnd.2.2 hkl (List.mem_cons_self _ _)
    have hkne : k ≠ "" := hne k (by simp)
    have hrun : runOps (stateOf m T v t l : LRUCache α) ((k :: ks).map (fun k => Op.set k v t))
        = runOps ((stateOf m T v t l : LRUCache α).set k v t)
            (ks.map (fun k => Op.set k v t)) := rfl
    rw [hrun]
    by_cases hlt : l.length < m
    · rw [set_stateOf_below m T v t l k hlt hknl]
      have h1 := ih (l ++ [k])
        (by rw [List.append_assoc, List.singleton_append]; exact hnd)
        (by rw [List.append_assoc, List.singleton_append]; exact hne)
        (by rw [List.length_append, List.length_singleton]; omega)
      rw [h1, List.append_assoc, List.singleton_append]
    · have hleq : l.length = m := le_antisymm hlen (not_lt.1 hlt)
      cases l with
      | nil =>
        simp only [List.length_nil] at hleq
        omega
      | cons k0 l' =>
        have hk0ne : k0 ≠ "" := hne k0 (by simp)
        have hk0nl' : k0 ∉ l' := by
          rw [List.nodup_append] at hnd
          have h6 := hnd.1
          rw [List.nodup_cons] at h6
          exact h6.1
        have hknl' : k ∉ l' := fun h => hknl (List.mem_cons_of_mem _ h)
        have hlen' : l'.length + 1 = m := by simpa using hleq
        rw [set_stateOf_full m T v t l' k0 k hlen' hk0ne hk0nl' hknl']
        have h1 := ih (l' ++ [k])
          (by
            rw [List.append_assoc, List.singleton_append]
            rw [List.cons_append, List.nodup_cons] at hnd
            exact hnd.2)
          (by
            rw [List.append_assoc, List.singleton_append]
            intro x hx
            exact hne x (by rw [List.cons_append]; exact List.mem_cons_of_mem _ hx))
          (by
            rw [List.length_append, List.length_singleton]
            omega)
        rw [h1, List.append_assoc, List.singleton_append]
        congr 1
        have h2 : (l' ++ k :: ks).length - m = ks.length := by
          rw [List.length_append, List.length_cons]
          omega
        have h3 : (k0 :: (l' ++ k :: ks)).length - m = ks.length + 1 := by
          rw [List.length_cons, List.length_append, List.length_cons]
          omega
        rw [List.cons_append, h2, h3, List.drop_succ_cons]

/-! ### Recency-order and liveness lemmas -/

theorem length_filter_partition {β : Type} (p : β → Bool) (l : List β) :
    (l.filter p).length + (l.filter (fun a => !p a)).length = l.length := by
  induction l with
  | nil => rfl
  | cons a t ih =>
    by_cases h : p a = true
    · rw [List.filter_cons, List.filter_cons, if_pos h, if_neg (by simp [h])]
      simp only [List.length_cons]
      omega
    · have h' : p a = false := by
        cases hpa : p a
        · rfl
        · exact absurd hpa h
      rw [List.filter_cons, List.filter_cons, if_neg h, if_pos (by simp [h'])]
      simp only [List.length_cons]
      omega

/-- After any `set(k, v)`, `k` sits at the most-recently-used (last) position. -/
theorem mru_keysOf_set {α : Type} (c : LRUCache α) (k : String) (v : α) (now : Nat) :
    (keysOf (c.set k v now).map).getLast? = some k := by
  rw [set_map_eq, keysOf_append]
  show (_ ++ [k]).getLast? = some k
  exact List.getLast?_concat _

/-- After any `set(k, v)`, the other surviving keys keep their relative order:
they form a sublist of the previous key order. -/
theorem sublist_keysOf_set {α : Type} (c : LRUCache α) (k : String) (v : α) (now : Nat) :
    List.Sublist ((keysOf (c.set k v now).map).filter (fun x => x ≠ k)) (keysOf c.map) := by
  cases ht : evictTarget c with
  | none =>
    have hX : keysOf (c.set k v now).map = keysOf (jsMapDelete c.map k) ++ [k] := by
      rw [set_map_eq, ht, keysOf_append]
      rfl
    rw [hX, List.filter_append, keysOf_jsMapDelete, List.filter_filter]
    have h0 : List.filter (fun x => x ≠ k) [k] = [] := by simp
    rw [h0, List.append_nil]
    exact List.filter_sublist _
  | some k0 =>
    have hX : keysOf (c.set k v now).map
        = keysOf (jsMapDelete (jsMapDelete c.map k0) k) ++ [k] := by
      rw [set_map_eq, ht, keysOf_append]
      rfl
    rw [hX, List.filter_append, keysOf_jsMapDelete, keysOf_jsMapDelete,
      List.filter_filter, List.filter_filter]
    have h0 : List.filter (fun x => x ≠ k) [k] = [] := by simp
    rw [h0, List.append_nil]
    exact List.filter_sublist _

/-- `get` never reorders the keys other than the accessed one. -/
theorem filter_keysOf_get {α : Type} (c : LRUCache α) (k : String) (now : Nat) :
    (keysOf ((c.get k now).1).map).filter (fun x => x ≠ k)
      = (keysOf c.map).filter (fun x => x ≠ k) := by
  cases hg : jsMapGet c.map k with
  | none => rw [get_miss c k now hg]
  | some e =>
    by_cases hx : isExpired now e = true
    · rw [get_expired c k now e hg hx]
      show (keysOf (jsMapDelete c.map k)).filter (fun x => x ≠ k)
          = (keysOf c.map).filter (fun x => x ≠ k)
      rw [keysOf_jsMapDelete, List.filter_filter]
      simp only [Bool.and_self]
    · rw [Bool.not_eq_true] at hx
      rw [get_hit c k now e hg hx]
      show (keysOf (jsMapDelete c.map k ++ [(k, e)])).filter (fun x => x ≠ k)
          = (keysOf c.map).filter (fun x => x ≠ k)
      rw [keysOf_append, List.filter_append, keysOf_jsMapDelete, List.filter_filter]
      have h0 : List.filter (fun x => x ≠ k) (keysOf [(k, e)]) = [] := by simp [keysOf]
      rw [h0, List.append_nil]
      simp only [Bool.and_self]

/-- Entries written at time `t` with a nonnegative offset are all live at `t`. -/
theorem liveKeys_pairMap {α : Type} (v : α) (t T : Nat) (l : List String) :
    liveKeys (pairMap v (t + T) l) t = l := by
  have h : (pairMap v (t + T) l).filter (fun p => !isExpired t p.2) = pairMap v (t + T) l := by
    apply List.filter_eq_self.mpr
    intro p hp
    simp only [pairMap, List.mem_map] at hp
    obtain ⟨x, hx, rfl⟩ := hp
    have hnot : ¬(t + T < t) := by omega
    simp [isExpired, hnot]
  unfold liveKeys
  rw [h, keysOf_pairMap]

/-- The raw stored count splits into live entries plus expired-but-stored ones. -/
theorem length_live_add_expired {α : Type} (m : List (String × Entry α)) (now : Nat) :
    (liveKeys m now).length + (m.filter (fun p => isExpired now p.2)).length = m.length := by
  induction m with
  | nil => rfl
  | cons p t ih =>
    simp only [liveKeys] at ih ⊢
    by_cases h : isExpired now p.2 = true
    · rw [List.filter_cons, List.filter_cons, if_neg (by simp [h]), if_pos h]
      simp only [keysOf_cons, List.length_cons]
      omega
    · have h' : isExpired now p.2 = false := by
        cases hh : isExpired now p.2
        · rfl
        · exact absurd hh h
      rw [List.filter_cons, List.filter_cons, if_pos (by simp [h']), if_neg h]
      simp only [keysOf_cons, List.length_cons]
      omega

/-! ### The claims -/

/-- Claim C1 counterexample: capacity 2, keys `a` and `b` stored (so the
stored count equals the positive capacity) and `b` already present — yet
`set("b", 3)` evicts `a`: the eviction guard in `set` runs before the presence
check (`server.js` lines 67-74), so replacing an existing key at capacity does
evict another key. -/
theorem claim_C1_counterexample :
    0 < (((LRUCache.new Nat 2 600).set "a" 1 0).set "b" 2 0).maxEntries
      ∧ (((LRUCache.new Nat 2 600).set "a" 1 0).set "b" 2 0).map.length
          = (((LRUCache.new Nat 2 600).set "a" 1 0).set "b" 2 0).maxEntries
      ∧ "a" ∈ keysOf ((((LRUCache.new Nat 2 600).set "a" 1 0).set "b" 2 0).map)
      ∧ "b" ∈ keysOf ((((LRUCache.new Nat 2 600).set "a" 1 0).set "b" 2 0).map)
      ∧ jsMapGet (((((LRUCache.new Nat 2 600).set "a" 1 0).set "b" 2 0).set "b" 3 5).map) "a"
          = none := by
  decide

/-- Claim C1 (amended): replacing a key `k` already present in a cache with
positive capacity evicts no other key — provided the stored count is strictly
below the capacity (at count ≥ capacity the first key is evicted even when `k`
is already present): every key present before the call is still present. -/
theorem claim_C1_amended (c : LRUCache Nat) (k : String) (v : Nat) (now : Nat) (k' : String)
    (hm : 0 < c.maxEntries) (hlen : c.map.length < c.maxEntries)
    (hk : k ∈ keysOf c.map) (hk' : k' ∈ keysOf c.map) :
    k' ∈ keysOf (c.set k v now).map := by
  rw [mem_keysOf_set]
  by_cases hkk : k' = k
  · exact Or.inl hkk
  · refine Or.inr ⟨hk', ?_⟩
    rw [evictTarget_none_of_lt (by omega)]
    simp

/-- Claim C1 amended, witnessed at a concrete input. -/
theorem claim_C1_amended_witness :
    "a" ∈ keysOf ((((LRUCache.new Nat 2 600).set "a" 1 0).set "a" 5 3).map) :=
  claim_C1_amended ((LRUCache.new Nat 2 600).set "a" 1 0) "a" 5 3 "a"
    (by decide) (by decide) (by decide) (by decide)

/-- Claim C2 counterexample: capacity 1, ttl 1 s; `a` is stored and has
expired by `now = 2000`, so the number of live distinct keys is 0, not equal
to the capacity — yet `set("b", 6)` still evicts `a`, because the eviction
guard compares the raw `map.size` (expired entries included) against
`maxEntries`. -/
theorem claim_C2_counterexample :
    liveKeys (((LRUCache.new Nat 1 1).set "a" 5 0).map) 2000 = []
      ∧ ((LRUCache.new Nat 1 1).set "a" 5 0).maxEntries = 1
      ∧ "a" ∈ keysOf (((LRUCache.new Nat 1 1).set "a" 5 0).map)
      ∧ keysOf ((((LRUCache.new Nat 1 1).set "a" 5 0).set "b" 6 2000).map) = ["b"] := by
  decide

/-- Claim C2 (amended): `set(key, value)` evicts exactly one entry — the
first (least-recently-used) key — iff the RAW stored count (expired entries
included) has reached `maxEntries` and that first key exists and is non-empty;
eviction is irrespective of the victim's expiry and of whether `key` is
already present.  Stated as: after the call, `k'` is stored iff it is the
written key, or was stored and is not the eviction target; and the eviction
target is the first key by recency whenever the raw count has reached
capacity (never otherwise). -/
theorem claim_C2_amended (c : LRUCache Nat) (k : String) (v : Nat) (now : Nat) (k' : String) :
    (k' ∈ keysOf (c.set k v now).map
        ↔ k' = k ∨ (k' ∈ keysOf c.map ∧ some k' ≠ evictTarget c))
      ∧ (∀ k0, evictTarget c = some k0 →
          c.map.length ≥ c.maxEntries ∧ firstKey c.map = some k0)
      ∧ (¬c.map.length ≥ c.maxEntries → evictTarget c = none) := by
  refine ⟨mem_keysOf_set c k v now k', ?_, evictTarget_none_of_lt⟩
  intro k0 h
  have h1 := evictTarget_some h
  exact ⟨h1.1, h1.2.1⟩

/-- Claim C2 amended, witnessed at a concrete input. -/
theorem claim_C2_amended_witness :
    "b" ∈ keysOf ((((LRUCache.new Nat 1 1).set "a" 5 0).set "b" 6 2000).map)
      ∧ (((LRUCache.new Nat 1 1).set "a" 5 0).map.length
            ≥ ((LRUCache.new Nat 1 1).set "a" 5 0).maxEntries
          ∧ firstKey (((LRUCache.new Nat 1 1).set "a" 5 0).map) = some "a") :=
  ⟨((claim_C2_amended ((LRUCache.new Nat 1 1).set "a" 5 0) "b" 6 2000 "b").1).2 (Or.inl rfl),
   ((claim_C2_amended ((LRUCache.new Nat 1 1).set "a" 5 0) "b" 6 2000 "b").2).1 "a" (by decide)⟩

/-- Claim C3 counterexample: capacity 2, the `set` sequence a, b, c, c has
3 > 2 distinct keys, and the 2 most-recently-touched distinct keys are c and
b — but after the sequence only c survives: the repeated `set` on the present
key c evicted b. -/
theorem claim_C3_counterexample :
    keysOf ((runOps (LRUCache.new Nat 2 600)
          [Op.set "a" 1 0, Op.set "b" 2 0, Op.set "c" 3 0, Op.set "c" 4 0]).map) = ["c"]
      ∧ (runOps (LRUCache.new Nat 2 600)
          [Op.set "a" 1 0, Op.set "b" 2 0, Op.set "c" 3 0, Op.set "c" 4 0]).stats.entries = 1
      ∧ liveKeys ((runOps (LRUCache.new Nat 2 600)
          [Op.set "a" 1 0, Op.set "b" 2 0, Op.set "c" 3 0, Op.set "c" 4 0]).map) 0 = ["c"] := by
  decide

/-- Claim C3 (amended): for a cache of positive capacity and operations on
non-empty keys, the stored count is at most the capacity after every sequence
of calls; and after a sequence of `set` calls on pairwise-distinct non-empty
keys with N > capacity, the stored (and live) keys are exactly the `capacity`
most recently set ones, in recency order. -/
theorem claim_C3_amended (m ttl v t : Nat) (ops : List (Op Nat)) (ks : List String)
    (hm : 0 < m) (hops : ∀ op ∈ ops, opKeyOk op = true)
    (hnd : ks.Nodup) (hne : ∀ x ∈ ks, x ≠ "") (hlen : m < ks.length) :
    (runOps (LRUCache.new Nat m ttl) ops).stats.entries ≤ m
      ∧ (runOps (LRUCache.new Nat m ttl) (ks.map (fun k => Op.set k v t))).map
          = pairMap v (t + ttl * 1000) (ks.drop (ks.length - m))
      ∧ liveKeys ((runOps (LRUCache.new Nat m ttl) (ks.map (fun k => Op.set k v t))).map) t
          = ks.drop (ks.length - m) := by
  have hbound : (runOps (LRUCache.new Nat m ttl) ops).stats.entries ≤ m := by
    have h1 := inv_runOps ops (LRUCache.new Nat m ttl) hm hops
      ⟨by simp [LRUCache.new], by simp [LRUCache.new, keysOf]⟩
    have h2 := runOps_maxEntries ops (LRUCache.new Nat m ttl)
    exact le_trans h1.1 (le_of_eq h2)
  have hsets := runSets_spec m (ttl * 1000) v t hm ks []
    (by simpa using hnd) (by simpa using hne) (by simp)
  have hmap : (runOps (LRUCache.new Nat m ttl) (ks.map (fun k => Op.set k v t))).map
      = pairMap v (t + ttl * 1000) (ks.drop (ks.length - m)) :=
    congrArg LRUCache.map hsets
  refine ⟨hbound, hmap, ?_⟩
  rw [hmap, liveKeys_pairMap]

/-- Claim C3 amended, witnessed at a concrete input. -/
theorem claim_C3_amended_witness :
    (runOps (LRUCache.new Nat 1 1) [Op.set "a" 0 0]).stats.entries ≤ 1
      ∧ (runOps (LRUCache.new Nat 1 1) (["a", "b"].map (fun k => Op.set k 0 0))).map
          = pairMap 0 (0 + 1 * 1000) (["a", "b"].drop (["a", "b"].length - 1))
      ∧ liveKeys ((runOps (LRUCache.new Nat 1 1)
            (["a", "b"].map (fun k => Op.set k 0 0))).map) 0
          = ["a", "b"].drop (["a", "b"].length - 1) :=
  claim_C3_amended 1 1 0 0 [Op.set "a" 0 0] ["a", "b"]
    (by decide) (by decide) (by decide) (by decide) (by decide)

/-- Claim C4 counterexample: ttl 1 second, entry set at time 0; at
`now = 1000` ms, exactly ttl seconds — i.e. at least ttl — have elapsed, yet
`get` still returns the value: the expiry test `Date.now() > entry.expiry` is
strict, so the entry survives the exact boundary. -/
theorem claim_C4_counterexample :
    (LRUCache.new Nat 5 1).ttlMillis = 1 * 1000
      ∧ ((((LRUCache.new Nat 5 1).set "k" 5 0).get "k" 1000)).2 = some 5 := by
  decide

/-- Claim C4 (amended): after `set(k, v)` at time `t`, a `get(k)` at `now`
removes the entry and returns absent iff STRICTLY more than ttl has elapsed
(`now > t + ttlMillis`); for `now ≤ t + ttlMillis` it returns `v`.  Expiry is
decided only inside this access, from the stored `expiresAt`. -/
theorem claim_C4_amended (c : LRUCache Nat) (k : String) (v : Nat) (t now : Nat) :
    (t + c.ttlMillis < now →
        ((c.set k v t).get k now).2 = none
          ∧ jsMapGet (((c.set k v t).get k now).1).map k = none)
      ∧ (now ≤ t + c.ttlMillis → ((c.set k v t).get k now).2 = some v) := by
  have hget : jsMapGet (c.set k v t).map k
      = some { value := v, expiry := t + c.ttlMillis } := by
    rw [set_map_eq]
    apply jsMapGet_append_self
    intro hmem
    rw [mem_keysOf_jsMapDelete] at hmem
    exact hmem.2 rfl
  constructor
  · intro h
    have hx : isExpired now ({ value := v, expiry := t + c.ttlMillis } : Entry Nat) = true := by
      simp only [isExpired, decide_eq_true_eq]
      exact h
    rw [get_expired _ _ _ _ hget hx]
    exact ⟨rfl, jsMapGet_jsMapDelete_self _ _⟩
  · intro h
    have hx : isExpired now ({ value := v, expiry := t + c.ttlMillis } : Entry Nat) = false := by
      simp only [isExpired, decide_eq_false_iff_not]
      omega
    rw [get_hit _ _ _ _ hget hx]

/-- Claim C4 amended, witnessed at a concrete input (both boundary sides). -/
theorem claim_C4_amended_witness :
    (((((LRUCache.new Nat 1 1).set "k" 5 0).get "k" 1001)).2 = none
        ∧ jsMapGet (((((LRUCache.new Nat 1 1).set "k" 5 0).get "k" 1001)).1).map "k" = none)
      ∧ ((((LRUCache.new Nat 1 1).set "k" 5 0).get "k" 1000)).2 = some 5 :=
  ⟨(claim_C4_amended (LRUCache.new Nat 1 1) "k" 5 0 1001).1 (by decide),
   (claim_C4_amended (LRUCache.new Nat 1 1) "k" 5 0 1000).2 (by decide)⟩

/-- Claim C5: a `get` hit on a present, unexpired key returns the stored value
and moves the key to the most-recently-used (last) position, leaving the other
keys in their relative order; any `set` on `k` leaves `k` last and the other
surviving keys in their previous relative order; `stats` changes nothing; and
`get` never reorders keys other than the accessed one — so `get` hits and
`set`s are the only recency-changing operations. -/
theorem claim_C5 (c : LRUCache Nat) (k : String) (v : Nat) (now : Nat) (e : Entry Nat) :
    (jsMapGet c.map k = some e → isExpired now e = false →
        (c.get k now).2 = some e.value
          ∧ keysOf ((c.get k now).1).map
              = (keysOf c.map).filter (fun x => x ≠ k) ++ [k])
      ∧ (keysOf (c.set k v now).map).getLast? = some k
      ∧ List.Sublist ((keysOf (c.set k v now).map).filter (fun x => x ≠ k)) (keysOf c.map)
      ∧ step c Op.stats = c
      ∧ (keysOf ((c.get k now).1).map).filter (fun x => x ≠ k)
          = (keysOf c.map).filter (fun x => x ≠ k) := by
  refine ⟨?_, mru_keysOf_set c k v now, sublist_keysOf_set c k v now, rfl,
    filter_keysOf_get c k now⟩
  intro h hx
  rw [get_hit c k now e h hx]
  refine ⟨rfl, ?_⟩
  show keysOf (jsMapDelete c.map k ++ [(k, e)]) = _
  rw [keysOf_append, keysOf_jsMapDelete]
  rfl

/-- Claim C5, witnessed at a concrete input. -/
theorem claim_C5_witness :
    ((((LRUCache.new Nat 2 600).set "k" 5 0).get "k" 0).2
        = some (({ value := 5, expiry := 600000 } : Entry Nat)).value)
      ∧ keysOf (((((LRUCache.new Nat 2 600).set "k" 5 0).get "k" 0)).1).map
          = (keysOf (((LRUCache.new Nat 2 600).set "k" 5 0).map)).filter (fun x => x ≠ "k")
            ++ ["k"] :=
  (claim_C5 ((LRUCache.new Nat 2 600).set "k" 5 0) "k" 9 0
    { value := 5, expiry := 600000 }).1 (by decide) (by decide)

/-- Claim C6: capacity 2 and the call sequence set(a,1); set(b,2); get(a);
set(c,3), all well within the TTL: the get hit returns 1 and promotes a, so b
is least-recently-used when c is inserted and is evicted — exactly the keys a
and c survive, in that recency order. -/
theorem claim_C6 :
    keysOf ((((((LRUCache.new Nat 2 600).set "a" 1 0).set "b" 2 0).get "a" 10).1).set
        "c" 3 20).map = ["a", "c"]
      ∧ ((((LRUCache.new Nat 2 600).set "a" 1 0).set "b" 2 0).get "a" 10).2 = some 1
      ∧ jsMapGet ((((((LRUCache.new Nat 2 600).set "a" 1 0).set "b" 2 0).get "a" 10).1).set
          "c" 3 20).map "b" = none := by
  decide

/-- Claim C7: `stats()` returns the raw stored count (splitting into live plus
expired-but-still-stored entries), the capacity and the TTL; it is pure — the
state after a `stats` call is the state before it, so inserting any number of
`stats` calls into a call sequence never changes where the sequence ends up,
hence never changes the outcome of any subsequent `get` or `set`. -/
theorem claim_C7 (c : LRUCache Nat) (ops₁ ops₂ : List (Op Nat)) (now : Nat) :
    c.stats = { entries := c.map.length, maxEntries := c.maxEntries, ttlMillis := c.ttlMillis }
      ∧ step c Op.stats = c
      ∧ runOps c (ops₁ ++ Op.stats :: ops₂) = runOps c (ops₁ ++ ops₂)
      ∧ c.stats.entries
          = (liveKeys c.map now).length + (c.map.filter (fun p => isExpired now p.2)).length := by
  refine ⟨rfl, rfl, ?_, ?_⟩
  · simp only [runOps, List.foldl_append, List.foldl_cons, step]
  · have hp := length_live_add_expired c.map now
    show c.map.length = _
    omega

/-- Claim C8 counterexample: constructing with capacity 0 — not positive —
does not fail with any `ConfigurationError`: the constructor performs no
validation, and the resulting cache accepts operations. -/
theorem claim_C8_counterexample :
    (LRUCache.new Nat 0 600).maxEntries = 0
      ∧ (LRUCache.new Nat 0 600).ttlMillis = 600000
      ∧ ((LRUCache.new Nat 0 600).set "k" 1 0).stats.entries = 1 := by
  decide

/-- Claim C8 (amended): construction succeeds for every capacity — including
non-positive ones, which are accepted silently rather than rejected with a
`ConfigurationError` — records the capacity and the TTL (converted to
milliseconds) with an empty map, and both values are fixed for the cache's
lifetime: no operation changes them. -/
theorem claim_C8_amended (m ttl : Nat) (c : LRUCache Nat) (op : Op Nat) :
    (LRUCache.new Nat m ttl).maxEntries = m
      ∧ (LRUCache.new Nat m ttl).ttlMillis = ttl * 1000
      ∧ (LRUCache.new Nat m ttl).map = []
      ∧ (step c op).maxEntries = c.maxEntries
      ∧ (step c op).ttlMillis = c.ttlMillis :=
  ⟨rfl, rfl, rfl, step_maxEntries c op, step_ttlMillis c op⟩

/-- Claim C9: `get` on an absent key returns absent and leaves the cache
untouched, and `get` on an expired key returns absent and removes (only) that
entry; both are ordinary absent results — the operations are total functions
of the state, with no error outcome in their type. -/
theorem claim_C9 (c : LRUCache Nat) (k : String) (now : Nat) :
    (jsMapGet c.map k = none → c.get k now = (c, none))
      ∧ (∀ e : Entry Nat, jsMapGet c.map k = some e → isExpired now e = true →
          (c.get k now).2 = none ∧ jsMapGet ((c.get k now).1).map k = none) := by
  constructor
  · intro h
    exact get_miss c k now h
  · intro e h hx
    rw [get_expired c k now e h hx]
    exact ⟨rfl, jsMapGet_jsMapDelete_self _ _⟩

/-- A concrete cache state holding a single already-expired entry. -/
def expiredSample : LRUCache Nat :=
  { maxEntries := 2, ttlMillis := 1000, map := [("k", { value := 5, expiry := 10 })] }

/-- Claim C9, witnessed at concrete inputs (never-set key, expired key). -/
theorem claim_C9_witness :
    (LRUCache.new Nat 2 600).get "x" 0 = (LRUCache.new Nat 2 600, none)
      ∧ ((expiredSample.get "k" 11).2 = none
          ∧ jsMapGet ((expiredSample.get "k" 11).1).map "k" = none) :=
  ⟨(claim_C9 (LRUCache.new Nat 2 600) "x" 0).1 (by decide),
   (claim_C9 expiredSample "k" 11).2 { value := 5, expiry := 10 } (by decide) (by decide)⟩

/-- Claim C10: capacity 0 is accepted at construction; on the resulting empty
cache the eviction guard fires (`0 >= 0`) but there is no first key
(`map.keys().next().value` is undefined, which is falsy), so the deletion is
skipped and `set` still inserts — `stats().entries` becomes 1, exceeding the
configured maximum of 0. -/
theorem claim_C10 :
    firstKey ((LRUCache.new Nat 0 600).map) = none
      ∧ ((LRUCache.new Nat 0 600).set "k" 7 0).map
          = [("k", { value := 7, expiry := 600000 })]
      ∧ ((LRUCache.new Nat 0 600).set "k" 7 0).stats.entries = 1
      ∧ (LRUCache.new Nat 0 600).stats.maxEntries = 0 := by
  decide

end WeatherCache
